import Mathlib

/-!
Verification of the account-name rewriter and its drivers
(`update_account_names.py`, `meta_ads_updater.py`).

Strings are modelled as `List Char`.  Python's `str.replace(old, new)`
(which replaces every non-overlapping occurrence, scanning left to right)
is modelled by `replaceAll`, written with an explicit fuel argument so that
it is structurally recursive and kernel-reducible; `replaceAll` supplies
fuel equal to the length of the scanned string, which is always enough
because every step consumes at least one character.
Python's substring test `t in s` is `isSubstrOf t s`.
-/

namespace MetaAds

/-- One step of Python's `str.replace` scan, with fuel.  At each position,
if the (nonempty) pattern `p` is a prefix of the remaining text, emit the
replacement `r` and skip over the matched pattern; otherwise emit the
current character and move one position right. -/
def replaceAllFuel (p r : List Char) : Nat → List Char → List Char
  | _, [] => []
  | 0, s => s
  | fuel + 1, c :: s =>
      if p ≠ [] ∧ p.isPrefixOf (c :: s) = true then
        r ++ replaceAllFuel p r fuel ((c :: s).drop p.length)
      else
        c :: replaceAllFuel p r fuel s

/-- Python's global `s.replace(p, r)` on list-of-character strings
(for nonempty `p`; the code never calls it with an empty pattern). -/
def replaceAll (p r s : List Char) : List Char :=
  replaceAllFuel p r s.length s

/-- Python's substring-containment test `t in s` (true when `t` occurs
contiguously inside `s`; the empty string is contained in everything). -/
def isSubstrOf (t : List Char) : List Char → Bool
  | [] => t.isEmpty
  | c :: s => t.isPrefixOf (c :: s) || isSubstrOf t s

/-- `create_area_mapping` from `update_account_names.py`: the fixed,
insertion-ordered table of (old area label, new area label) pairs. -/
def create_area_mapping : List (List Char × List Char) :=
  [ ("North America West".toList, "United States West".toList),
    ("North America East".toList, "United States East".toList),
    ("North America Central".toList, "United States Central".toList),
    ("North America Southwest".toList, "United States Southwest".toList),
    ("North America Southeast".toList, "United States Southeast".toList),
    ("North America Northeast".toList, "United States Northeast".toList) ]

/-- The Canada branch of `update_account_name`: iterate over the mapping
keys in table order; at the first key contained in the name, return
`name.replace(old + " Area", "Canada Area")`; if no key is contained,
return the name unchanged. -/
def canadaScan : List (List Char × List Char) → List Char → List Char
  | [], name => name
  | (old, _) :: rest, name =>
      if isSubstrOf old name = true then
        replaceAll (old ++ (" Area").toList) ("Canada Area").toList name
      else
        canadaScan rest name

/-- The generic branch of `update_account_name`: iterate over the mapping
in table order; at the first pair whose old label is contained in the
name, return `name.replace(old, new)`; otherwise return the name. -/
def genericScan : List (List Char × List Char) → List Char → List Char
  | [], name => name
  | (old, new) :: rest, name =>
      if isSubstrOf old name = true then
        replaceAll old new name
      else
        genericScan rest name

/-- `update_account_name` from `update_account_names.py`: if the name
contains "Canada", run the Canada branch; otherwise run the generic
mapping branch. -/
def update_account_name (account_name : List Char) : List Char :=
  if isSubstrOf ("Canada").toList account_name = true then
    canadaScan create_area_mapping account_name
  else
    genericScan create_area_mapping account_name

/-- `process_accounts_from_list` from `update_account_names.py`
(the printed progress lines are side effects that do not affect the
returned value): each input name is paired with its rewrite, in order. -/
def process_accounts_from_list (account_names : List (List Char)) :
    List (List Char × List Char) :=
  account_names.map (fun name => (name, update_account_name name))

/-- Python's `s.replace(p, r, 1)`-style single replacement, with fuel:
replaces only the first (leftmost) occurrence of the nonempty pattern.
This is not what the source code does; it is used to state the spec's
"first occurrence" reading for comparison against `replaceAll`. -/
def replaceFirstFuel (p r : List Char) : Nat → List Char → List Char
  | _, [] => []
  | 0, s => s
  | fuel + 1, c :: s =>
      if p ≠ [] ∧ p.isPrefixOf (c :: s) = true then
        r ++ (c :: s).drop p.length
      else
        c :: replaceFirstFuel p r fuel s

/-- Single (first-occurrence) replacement, see `replaceFirstFuel`. -/
def replaceFirst (p r s : List Char) : List Char :=
  replaceFirstFuel p r s.length s

/-- Spec reading of the Canada branch (claim C1): scan the mapping in
table order and, at the first pair whose `old ++ " Area"` substring is
contained in the input, replace that substring with "Canada Area";
if no pair's `old ++ " Area"` is contained, return the input unchanged.
This differs from the source, whose scan tests containment of `old`
alone (without the " Area" suffix). -/
def specCanadaScan : List (List Char × List Char) → List Char → List Char
  | [], name => name
  | (old, _) :: rest, name =>
      if isSubstrOf (old ++ (" Area").toList) name = true then
        replaceAll (old ++ (" Area").toList) ("Canada Area").toList name
      else
        specCanadaScan rest name

/-- Spec reading of the generic branch (claim C2): scan the mapping in
table order and, at the first pair whose old label is contained in the
input, replace only the **first occurrence** of the old label with the
new label.  This differs from the source, whose `str.replace` call
replaces every occurrence. -/
def specGenericScan : List (List Char × List Char) → List Char → List Char
  | [], name => name
  | (old, new) :: rest, name =>
      if isSubstrOf old name = true then
        replaceFirst old new name
      else
        specGenericScan rest name

/-! Model of the remote driver `meta_ads_updater.py`.  The outcome of
each HTTP call is an input of the model: `ApiResult` stands for
"the request succeeded with this payload" versus "a
`requests.exceptions.RequestException` was raised", and a function
`pushResult : id → new name → Bool` gives the outcome of each rename
call (this is the boolean returned by `MetaAdsUpdater.update_account_name`,
which is `True` on HTTP success and `False` when the request raises).
Side-effecting calls made by the processing loop (the rename POST and
`time.sleep(1)`) are recorded in an event trace. -/

structure Account where
  id : List Char
  name : List Char
  deriving DecidableEq

/-- A raw entry of the listing response: `id`, `name`, and the optional
`account_status` field read with `.get('account_status')`. -/
structure RawAccount where
  id : List Char
  name : List Char
  account_status : Option Int
  deriving DecidableEq

/-- Outcome of an HTTP call: either the parsed payload or a transport
error (a raised `requests.exceptions.RequestException`). -/
inductive ApiResult (α : Type) where
  | ok : α → ApiResult α
  | transportError : ApiResult α
  deriving DecidableEq

/-- `MetaAdsUpdater.get_all_ad_accounts`: on a transport error the
handler logs and returns `[]`; on success it keeps exactly the entries
whose `account_status` equals 1 (active), as `{id, name}` records. -/
def get_all_ad_accounts (resp : ApiResult (List RawAccount)) : List Account :=
  match resp with
  | ApiResult.transportError => []
  | ApiResult.ok data =>
      (data.filter (fun a => a.account_status == some 1)).map
        (fun a => { id := a.id, name := a.name })

/-- `MetaAdsUpdater.update_account_name` (the rename POST): returns
`True` when the request succeeds and `False` (after logging) when it
raises a `RequestException`. -/
def MetaAdsUpdater.update_account_name (resp : ApiResult Unit) : Bool :=
  match resp with
  | ApiResult.ok _ => true
  | ApiResult.transportError => false

/-- An observable side effect of the processing loop: a rename POST for
a given account id and new name, or a `time.sleep(1)` pause. -/
inductive Event where
  | push : List Char → List Char → Event
  | sleep : Event
  deriving DecidableEq

/-- The summary dictionary built by `process_all_accounts`. -/
structure Results where
  total_accounts : Nat
  changed : Nat
  unchanged : Nat
  errors : Nat
  changes : List (List Char × List Char × List Char)
  deriving DecidableEq

/-- One iteration of the `for account in accounts` loop of
`process_all_accounts`, threading the summary and the event trace.
`pushResult id name` is the boolean outcome of the rename call for that
account. -/
def processAccountStep (pushResult : List Char → List Char → Bool) (dry_run : Bool)
    (st : Results × List Event) (account : Account) : Results × List Event :=
  let results := st.1
  let trace := st.2
  let original_name := account.name
  let updated_name := update_account_name original_name
  if original_name ≠ updated_name then
    if dry_run = false then
      let success := pushResult account.id updated_name
      let results1 :=
        if success = true then { results with changed := results.changed + 1 }
        else { results with errors := results.errors + 1 }
      ({ results1 with
          changes := results1.changes ++ [(account.id, original_name, updated_name)] },
        trace ++ [Event.push account.id updated_name, Event.sleep])
    else
      ({ results with
          changed := results.changed + 1,
          changes := results.changes ++ [(account.id, original_name, updated_name)] },
        trace)
  else
    ({ results with unchanged := results.unchanged + 1 }, trace)

/-- `MetaAdsUpdater.process_all_accounts`: fetch the account list, then
fold the per-account step over it, starting from the summary
initialised with `total_accounts = len(accounts)` and zero counters. -/
def process_all_accounts (pushResult : List Char → List Char → Bool)
    (listResp : ApiResult (List RawAccount)) (dry_run : Bool) : Results × List Event :=
  let accounts := get_all_ad_accounts listResp
  accounts.foldl (processAccountStep pushResult dry_run)
    ({ total_accounts := accounts.length, changed := 0, unchanged := 0, errors := 0,
        changes := [] }, [])

/-- The rename POSTs of a trace, in order. -/
def pushEvents : List Event → List (List Char × List Char)
  | [] => []
  | Event.push i n :: rest => (i, n) :: pushEvents rest
  | Event.sleep :: rest => pushEvents rest

/-- The side effects contributed by one account in a live (non-dry)
run: a rename POST followed by a sleep when the rewrite changes the
name, nothing otherwise. -/
def accountEvents (a : Account) : List Event :=
  if a.name ≠ update_account_name a.name then
    [Event.push a.id (update_account_name a.name), Event.sleep]
  else []

/-- The event trace of a live processing loop over a list of accounts
(used to characterise the trace of `process_all_accounts`). -/
def liveTrace : List Account → List Event
  | [] => []
  | a :: rest => accountEvents a ++ liveTrace rest

/-! Basic facts linking the executable Boolean substring operations to
the propositional `<+:` / `<:+` / `<:+:` relations, and the unfolding
equations of `replaceAll`. -/

theorem isPre_iff (l₁ l₂ : List Char) : l₁.isPrefixOf l₂ = true ↔ l₁ <+: l₂ := by
  induction l₁ generalizing l₂ <;> cases l₂ <;> simp_all [List.isPrefixOf]

theorem inf_of_pre {l₁ l₂ : List Char} (h : l₁ <+: l₂) : l₁ <:+: l₂ := by
  obtain ⟨t, h⟩ := h
  exact ⟨[], t, by simpa using h⟩

theorem inf_extend_left {t s : List Char} (c : Char) (h : t <:+: s) : t <:+: c :: s := by
  obtain ⟨u, v, h⟩ := h
  exact ⟨c :: u, v, by simp [h]⟩

theorem inf_extend_app_left {t s : List Char} (s₁ : List Char) (h : t <:+: s) :
    t <:+: s₁ ++ s := by
  obtain ⟨u, v, h⟩ := h
  exact ⟨s₁ ++ u, v, by simp [h]⟩

theorem inf_trans {t m s : List Char} (h₁ : t <:+: m) (h₂ : m <:+: s) : t <:+: s := by
  obtain ⟨u₁, v₁, h₁⟩ := h₁
  obtain ⟨u₂, v₂, h₂⟩ := h₂
  exact ⟨u₂ ++ u₁, v₁ ++ v₂, by rw [← h₂, ← h₁]; simp⟩

theorem inf_cons_cases {t s : List Char} {c : Char} :
    t <:+: c :: s ↔ t <+: c :: s ∨ t <:+: s := by
  constructor
  · rintro ⟨u, v, h⟩
    cases u with
    | nil => exact Or.inl ⟨v, by simpa using h⟩
    | cons c' u' =>
        right
        rw [List.cons_append, List.cons_append] at h
        exact ⟨u', v, (List.cons.inj h).2⟩
  · rintro (⟨v, h⟩ | h)
    · exact ⟨[], v, by simpa using h⟩
    · exact inf_extend_left c h

theorem pre_cons_cases {w s : List Char} {c : Char} (h : w <+: c :: s) :
    w = [] ∨ ∃ w', w = c :: w' ∧ w' <+: s := by
  obtain ⟨t, ht⟩ := h
  cases w with
  | nil => exact Or.inl rfl
  | cons c' w' =>
      rw [List.cons_append] at ht
      injection ht with h1 h2
      exact Or.inr ⟨w', by rw [h1], ⟨t, h2⟩⟩

theorem pre_append_cases {w A B : List Char} (h : w <+: A ++ B) :
    w <+: A ∨ ∃ w₂, w = A ++ w₂ ∧ w₂ <+: B := by
  induction A generalizing w with
  | nil => exact Or.inr ⟨w, by simpa using h⟩
  | cons a A' ih =>
      rcases pre_cons_cases h with rfl | ⟨w', rfl, hw'⟩
      · exact Or.inl ⟨a :: A', rfl⟩
      · rcases ih hw' with h' | ⟨w₂, rfl, hw₂⟩
        · obtain ⟨t, ht⟩ := h'
          exact Or.inl ⟨t, by rw [List.cons_append, ht]⟩
        · exact Or.inr ⟨w₂, by simp, hw₂⟩

theorem pre_nil {l : List Char} : [] <+: l := ⟨l, rfl⟩

theorem suf_extend_left {t s : List Char} (c : Char) (h : t <:+ s) : t <:+ c :: s := by
  obtain ⟨u, h⟩ := h
  exact ⟨c :: u, by simp [h]⟩

theorem inf_append_cases {t A B : List Char} (h : t <:+: A ++ B) :
    t <:+: A ∨ t <:+: B ∨
      ∃ t₁ t₂, t = t₁ ++ t₂ ∧ t₁ ≠ [] ∧ t₂ ≠ [] ∧ t₁ <:+ A ∧ t₂ <+: B := by
  induction A generalizing t with
  | nil => exact Or.inr (Or.inl (by simpa using h))
  | cons a A' ih =>
      rw [List.cons_append, inf_cons_cases] at h
      rcases h with h | h
      · rcases pre_cons_cases h with rfl | ⟨t', rfl, ht'⟩
        · exact Or.inl ⟨[], a :: A', rfl⟩
        · rcases pre_append_cases ht' with h' | ⟨t₂, rfl, ht₂⟩
          · exact Or.inl (inf_of_pre ((List.cons_prefix_cons).mpr ⟨rfl, h'⟩))
          · cases t₂ with
            | nil => exact Or.inl (by simp)
            | cons b t₂' =>
                refine Or.inr (Or.inr ⟨a :: A', b :: t₂', by simp, by simp, by simp, ?_, ht₂⟩)
                exact ⟨[], rfl⟩
      · rcases ih h with h' | h' | ⟨t₁, t₂, rfl, h1, h2, h3, h4⟩
        · exact Or.inl (inf_extend_left a h')
        · exact Or.inr (Or.inl h')
        · exact Or.inr (Or.inr ⟨t₁, t₂, rfl, h1, h2, suf_extend_left a h3, h4⟩)

theorem isSubstrOf_iff (t s : List Char) : isSubstrOf t s = true ↔ t <:+: s := by
  induction s with
  | nil =>
      simp only [isSubstrOf, List.isEmpty_iff]
      constructor
      · rintro rfl; exact ⟨[], [], rfl⟩
      · rintro ⟨u, v, h⟩
        obtain ⟨h1, -⟩ := List.append_eq_nil.mp h
        obtain ⟨-, h2⟩ := List.append_eq_nil.mp h1
        exact h2
  | cons c s ih =>
      simp only [isSubstrOf, Bool.or_eq_true, isPre_iff, ih, inf_cons_cases]

theorem replaceAllFuel_congr (p r : List Char) :
    ∀ f₁ f₂ s, s.length ≤ f₁ → s.length ≤ f₂ →
      replaceAllFuel p r f₁ s = replaceAllFuel p r f₂ s := by
  intro f₁
  induction f₁ with
  | zero =>
      intro f₂ s h1 _
      have hs : s = [] := List.eq_nil_of_length_eq_zero (Nat.le_zero.mp h1)
      subst hs
      cases f₂ <;> rfl
  | succ n ih =>
      intro f₂ s h1 h2
      cases s with
      | nil => cases f₂ <;> rfl
      | cons c s' =>
          cases f₂ with
          | zero => simp at h2
          | succ m =>
              simp only [replaceAllFuel]
              by_cases hc : p ≠ [] ∧ p.isPrefixOf (c :: s') = true
              · rw [if_pos hc, if_pos hc]
                have hplen : 1 ≤ p.length := by
                  cases p with
                  | nil => exact absurd rfl hc.1
                  | cons _ _ => simp
                have hd : ((c :: s').drop p.length).length ≤ s'.length := by
                  rw [List.length_drop]
                  simp only [List.length_cons]
                  omega
                have hn : s'.length ≤ n := by simpa using h1
                have hm : s'.length ≤ m := by simpa using h2
                rw [ih m ((c :: s').drop p.length) (le_trans hd hn) (le_trans hd hm)]
              · rw [if_neg hc, if_neg hc]
                have hn : s'.length ≤ n := by simpa using h1
                have hm : s'.length ≤ m := by simpa using h2
                rw [ih m s' hn hm]

theorem replaceAll_cons_pos {p : List Char} (r : List Char) {c : Char} {s : List Char}
    (hp : p ≠ []) (h : p.isPrefixOf (c :: s) = true) :
    replaceAll p r (c :: s) = r ++ replaceAll p r ((c :: s).drop p.length) := by
  show replaceAllFuel p r (c :: s).length (c :: s) = _
  simp only [List.length_cons, replaceAllFuel, if_pos (And.intro hp h)]
  congr 1
  apply replaceAllFuel_congr
  · have hplen : 1 ≤ p.length := by
      cases p with
      | nil => exact absurd rfl hp
      | cons _ _ => simp
    rw [List.length_drop]
    simp only [List.length_cons]
    omega
  · exact le_refl _

theorem replaceAll_cons_neg {p : List Char} (r : List Char) {c : Char} {s : List Char}
    (h : ¬(p ≠ [] ∧ p.isPrefixOf (c :: s) = true)) :
    replaceAll p r (c :: s) = c :: replaceAll p r s := by
  show replaceAllFuel p r (c :: s).length (c :: s) = _
  simp only [List.length_cons, replaceAllFuel, if_neg h]
  rfl

/-- If the pattern does not occur in `s`, the replacement is the
identity. -/
theorem replaceAll_id_of_not_occ {p : List Char} (r : List Char) :
    ∀ {s : List Char}, ¬ p <:+: s → replaceAll p r s = s := by
  intro s
  induction s with
  | nil => intro _; rfl
  | cons c s' ih =>
      intro h
      have hpre : ¬ (p ≠ [] ∧ p.isPrefixOf (c :: s') = true) := by
        rintro ⟨-, hp⟩
        exact h (inf_of_pre ((isPre_iff p (c :: s')).mp hp))
      rw [replaceAll_cons_neg r hpre, ih (fun h' => h (inf_extend_left c h'))]

/-- If the result of a replacement differs from the input, the pattern
occurred in the input. -/
theorem occ_of_replaceAll_ne {p r s : List Char} (h : replaceAll p r s ≠ s) : p <:+: s := by
  by_contra h'
  exact h (replaceAll_id_of_not_occ r h')

/-- If the (nonempty) pattern occurs in `s`, the replacement string
occurs in the result of the replacement. -/
theorem rep_occ_replaceAll {p : List Char} (r : List Char) (hp : p ≠ []) :
    ∀ {s : List Char}, p <:+: s → r <:+: replaceAll p r s := by
  intro s
  induction s with
  | nil =>
      rintro ⟨u, v, h⟩
      obtain ⟨h1, -⟩ := List.append_eq_nil.mp h
      obtain ⟨-, h2⟩ := List.append_eq_nil.mp h1
      exact absurd h2 hp
  | cons c s' ih =>
      intro h
      by_cases hpre : p.isPrefixOf (c :: s') = true
      · rw [replaceAll_cons_pos r hp hpre]
        exact ⟨[], replaceAll p r ((c :: s').drop p.length), by simp⟩
      · have hc : ¬ (p ≠ [] ∧ p.isPrefixOf (c :: s') = true) := fun hh => hpre hh.2
        rw [replaceAll_cons_neg r hc]
        have : p <:+: s' := by
          rcases inf_cons_cases.mp h with h' | h'
          · exact absurd ((isPre_iff p (c :: s')).mpr h') hpre
          · exact h'
        exact inf_extend_left c (ih this)

theorem eq_append_drop_of_pre {p l : List Char} (h : p <+: l) :
    l = p ++ l.drop p.length := by
  obtain ⟨t, rfl⟩ := h
  rw [List.drop_left]

/-- Every prefix of `replaceAll p r s` is either a prefix of `s`, or a
prefix of `s` followed by a nonempty block that starts like the
replacement string `r` (it is a prefix of `r`, or starts with a full
copy of `r`). -/
theorem replaceAll_pre_structure {p r : List Char} (hp : p ≠ []) (hr : r ≠ []) :
    ∀ n s, s.length ≤ n → ∀ w, w <+: replaceAll p r s →
      w <+: s ∨ ∃ a b, w = a ++ b ∧ a <+: s ∧ b ≠ [] ∧ (b <+: r ∨ r <+: b) := by
  intro n
  induction n with
  | zero =>
      intro s hs w hw
      have : s = [] := List.eq_nil_of_length_eq_zero (Nat.le_zero.mp hs)
      subst this
      left
      exact hw
  | succ n ih =>
      intro s hs w hw
      cases s with
      | nil => exact Or.inl hw
      | cons c s' =>
          by_cases hpre : p.isPrefixOf (c :: s') = true
          · rw [replaceAll_cons_pos r hp hpre] at hw
            rcases pre_append_cases hw with hwr | ⟨w₂, rfl, hw₂⟩
            · by_cases hw0 : w = []
              · subst hw0
                exact Or.inl (pre_nil)
              · exact Or.inr ⟨[], w, by simp, pre_nil, hw0, Or.inl hwr⟩
            · refine Or.inr ⟨[], r ++ w₂, by simp, pre_nil, ?_, Or.inr ⟨w₂, rfl⟩⟩
              intro hcon
              obtain ⟨h1, -⟩ := List.append_eq_nil.mp hcon
              exact hr h1
          · rw [replaceAll_cons_neg r (fun hh => hpre hh.2)] at hw
            rcases pre_cons_cases hw with rfl | ⟨w', rfl, hw'⟩
            · exact Or.inl pre_nil
            · have hlen : s'.length ≤ n := by simpa using hs
              rcases ih s' hlen w' hw' with h' | ⟨a, b, rfl, ha, hb, hrb⟩
              · exact Or.inl (List.cons_prefix_cons.mpr ⟨rfl, h'⟩)
              · exact Or.inr ⟨c :: a, b, by simp, List.cons_prefix_cons.mpr ⟨rfl, ha⟩, hb, hrb⟩

/-- Replacement cannot create a new occurrence of a target string `t`,
provided: `t` does not occur inside the replacement `r`; no nonempty
proper front part of `t` is a suffix of `r` (so an occurrence of `t`
cannot start inside an inserted copy of `r`); and no nonempty tail part
of `t` starts like `r` (so an occurrence of `t` cannot run into an
inserted copy of `r`).  All three side conditions are decidable and are
checked by `decide` at each concrete (pattern, replacement) pair. -/
theorem no_new_occ {p r t : List Char} (hp : p ≠ []) (hr : r ≠ [])
    (H1 : ¬ t <:+: r)
    (H2 : ∀ k, k < t.length → 0 < k → ¬ (t.take k <:+ r))
    (H3 : ∀ k, k < t.length → 0 < k → ¬ (t.drop k <+: r ∨ r <+: t.drop k)) :
    ∀ n s, s.length ≤ n → ¬ t <:+: s → ¬ t <:+: replaceAll p r s := by
  intro n
  induction n with
  | zero =>
      intro s hs hts hcon
      have : s = [] := List.eq_nil_of_length_eq_zero (Nat.le_zero.mp hs)
      subst this
      exact hts hcon
  | succ n ih =>
      intro s hs hts hcon
      cases s with
      | nil => exact hts hcon
      | cons c s' =>
          by_cases hpre : p.isPrefixOf (c :: s') = true
          · have heq : (c :: s') = p ++ (c :: s').drop p.length :=
              eq_append_drop_of_pre ((isPre_iff p (c :: s')).mp hpre)
            rw [replaceAll_cons_pos r hp hpre] at hcon
            have hplen : 1 ≤ p.length := by
              cases p with
              | nil => exact absurd rfl hp
              | cons _ _ => simp
            have hs₂len : ((c :: s').drop p.length).length ≤ n := by
              rw [List.length_drop]
              simp only [List.length_cons]
              simp only [List.length_cons] at hs
              omega
            have hts₂ : ¬ t <:+: (c :: s').drop p.length := by
              intro h'
              exact hts (heq ▸ inf_extend_app_left p h')
            rcases inf_append_cases hcon with h | h | ⟨t₁, t₂, ht, h1, h2, h3, -⟩
            · exact H1 h
            · exact ih ((c :: s').drop p.length) hs₂len hts₂ h
            · have htake : t.take t₁.length = t₁ := by rw [ht, List.take_left]
              have hlt : t₁.length < t.length := by
                rw [ht, List.length_append]
                cases t₂ with
                | nil => exact absurd rfl h2
                | cons _ _ => simp
              have hpos : 0 < t₁.length := by
                cases t₁ with
                | nil => exact absurd rfl h1
                | cons _ _ => simp
              exact H2 t₁.length hlt hpos (by rw [htake]; exact h3)
          · rw [replaceAll_cons_neg r (fun hh => hpre hh.2)] at hcon
            have hlen : s'.length ≤ n := by simpa using hs
            rcases inf_cons_cases.mp hcon with h | h
            · rcases pre_cons_cases h with rfl | ⟨t', rfl, ht'⟩
              · exact hts ⟨[], c :: s', rfl⟩
              · rcases replaceAll_pre_structure hp hr n s' hlen t' ht' with h' |
                  ⟨a, b, hab, ha, hb, hrb⟩
                · exact hts (inf_of_pre (List.cons_prefix_cons.mpr ⟨rfl, h'⟩))
                · have htb : c :: t' = (c :: a) ++ b := by rw [hab, List.cons_append]
                  have hdrop : (c :: t').drop (c :: a).length = b := by
                    rw [htb, List.drop_left]
                  have hlt : (c :: a).length < (c :: t').length := by
                    rw [htb, List.length_append]
                    cases b with
                    | nil => exact absurd rfl hb
                    | cons _ _ => simp
                  exact H3 (c :: a).length hlt (by simp) (hdrop ▸ hrb)
            · exact ih s' hlen (fun h' => hts (inf_extend_left c h')) h

/-! Scan-level lemmas: the two branches of `update_account_name` pick the
first mapping pair whose old label is contained in the name (`List.find?`
gives exactly this first-match semantics), and are the identity when
nothing matches. -/

theorem canadaScan_of_found :
    ∀ (m : List (List Char × List Char)) {name old nw : List Char},
      m.find? (fun q => isSubstrOf q.1 name) = some (old, nw) →
      canadaScan m name
        = replaceAll (old ++ (" Area").toList) ("Canada Area").toList name := by
  intro m
  induction m with
  | nil => intro name old nw h; simp at h
  | cons q rest ih =>
      intro name old nw h
      obtain ⟨o, w⟩ := q
      by_cases ho : isSubstrOf o name = true
      · have ho' : (fun q : List Char × List Char => isSubstrOf q.1 name) (o, w) = true := ho
        rw [@List.find?_cons_of_pos _ (fun q => isSubstrOf q.1 name) (o, w) rest ho'] at h
        injection h with h
        obtain ⟨rfl, rfl⟩ := Prod.mk.inj h
        simp only [canadaScan, if_pos ho]
      · have ho' : ¬ (fun q : List Char × List Char => isSubstrOf q.1 name) (o, w) = true := ho
        rw [@List.find?_cons_of_neg _ (fun q => isSubstrOf q.1 name) (o, w) rest ho'] at h
        simp only [canadaScan, if_neg ho]
        exact ih h

theorem canadaScan_of_none :
    ∀ (m : List (List Char × List Char)) {name : List Char},
      m.find? (fun q => isSubstrOf q.1 name) = none → canadaScan m name = name := by
  intro m
  induction m with
  | nil => intro name _; rfl
  | cons q rest ih =>
      intro name h
      obtain ⟨o, w⟩ := q
      by_cases ho : isSubstrOf o name = true
      · have ho' : (fun q : List Char × List Char => isSubstrOf q.1 name) (o, w) = true := ho
        rw [@List.find?_cons_of_pos _ (fun q => isSubstrOf q.1 name) (o, w) rest ho'] at h
        exact absurd h (by simp)
      · have ho' : ¬ (fun q : List Char × List Char => isSubstrOf q.1 name) (o, w) = true := ho
        rw [@List.find?_cons_of_neg _ (fun q => isSubstrOf q.1 name) (o, w) rest ho'] at h
        simp only [canadaScan, if_neg ho]
        exact ih h

theorem genericScan_of_found :
    ∀ (m : List (List Char × List Char)) {name old nw : List Char},
      m.find? (fun q => isSubstrOf q.1 name) = some (old, nw) →
      genericScan m name = replaceAll old nw name := by
  intro m
  induction m with
  | nil => intro name old nw h; simp at h
  | cons q rest ih =>
      intro name old nw h
      obtain ⟨o, w⟩ := q
      by_cases ho : isSubstrOf o name = true
      · have ho' : (fun q : List Char × List Char => isSubstrOf q.1 name) (o, w) = true := ho
        rw [@List.find?_cons_of_pos _ (fun q => isSubstrOf q.1 name) (o, w) rest ho'] at h
        injection h with h
        obtain ⟨rfl, rfl⟩ := Prod.mk.inj h
        simp only [genericScan, if_pos ho]
      · have ho' : ¬ (fun q : List Char × List Char => isSubstrOf q.1 name) (o, w) = true := ho
        rw [@List.find?_cons_of_neg _ (fun q => isSubstrOf q.1 name) (o, w) rest ho'] at h
        simp only [genericScan, if_neg ho]
        exact ih h

theorem genericScan_of_none :
    ∀ (m : List (List Char × List Char)) {name : List Char},
      m.find? (fun q => isSubstrOf q.1 name) = none → genericScan m name = name := by
  intro m
  induction m with
  | nil => intro name _; rfl
  | cons q rest ih =>
      intro name h
      obtain ⟨o, w⟩ := q
      by_cases ho : isSubstrOf o name = true
      · have ho' : (fun q : List Char × List Char => isSubstrOf q.1 name) (o, w) = true := ho
        rw [@List.find?_cons_of_pos _ (fun q => isSubstrOf q.1 name) (o, w) rest ho'] at h
        exact absurd h (by simp)
      · have ho' : ¬ (fun q : List Char × List Char => isSubstrOf q.1 name) (o, w) = true := ho
        rw [@List.find?_cons_of_neg _ (fun q => isSubstrOf q.1 name) (o, w) rest ho'] at h
        simp only [genericScan, if_neg ho]
        exact ih h

/-- The Canada branch leaves the name unchanged whenever no mapping
pair's `old ++ " Area"` occurs in it (even if some bare old label does
occur: the replacement then finds nothing to replace). -/
theorem canadaScan_id_of_no_area_occ :
    ∀ (m : List (List Char × List Char)) {name : List Char},
      (∀ q ∈ m, ¬ (q.1 ++ (" Area").toList) <:+: name) → canadaScan m name = name := by
  intro m
  induction m with
  | nil => intro name _; rfl
  | cons q rest ih =>
      intro name h
      obtain ⟨o, w⟩ := q
      by_cases ho : isSubstrOf o name = true
      · simp only [canadaScan, if_pos ho]
        exact replaceAll_id_of_not_occ _ (h (o, w) (by simp))
      · simp only [canadaScan, if_neg ho]
        exact ih (fun q hq => h q (List.mem_cons_of_mem _ hq))

/-- The generic branch leaves the name unchanged whenever no old label
occurs in it. -/
theorem genericScan_id_of_no_occ :
    ∀ (m : List (List Char × List Char)) {name : List Char},
      (∀ q ∈ m, ¬ q.1 <:+: name) → genericScan m name = name := by
  intro m
  induction m with
  | nil => intro name _; rfl
  | cons q rest ih =>
      intro name h
      obtain ⟨o, w⟩ := q
      have ho : ¬ isSubstrOf o name = true := by
        intro hc
        exact h (o, w) (by simp) ((isSubstrOf_iff o name).mp hc)
      simp only [genericScan, if_neg ho]
      exact ih (fun q hq => h q (List.mem_cons_of_mem _ hq))

theorem append_area_ne_nil (o : List Char) : o ++ (" Area").toList ≠ [] := by
  intro h
  obtain ⟨-, h2⟩ := List.append_eq_nil.mp h
  simp at h2

/-- The Canada branch never loses the substring "Canada": it either
returns the name unchanged or inserts literal copies of "Canada Area". -/
theorem canadaScan_keeps_canada :
    ∀ (m : List (List Char × List Char)) {name : List Char},
      ("Canada").toList <:+: name → ("Canada").toList <:+: canadaScan m name := by
  intro m
  induction m with
  | nil => intro name h; exact h
  | cons q rest ih =>
      intro name h
      obtain ⟨o, w⟩ := q
      by_cases ho : isSubstrOf o name = true
      · simp only [canadaScan, if_pos ho]
        by_cases hocc : (o ++ (" Area").toList) <:+: name
        · refine inf_trans (by decide) (rep_occ_replaceAll _ (append_area_ne_nil o) hocc)
        · rw [replaceAll_id_of_not_occ _ hocc]
          exact h
      · simp only [canadaScan, if_neg ho]
        exact ih h

/-- The Canada branch cannot create a new occurrence of a target `t`
that satisfies the `no_new_occ` side conditions with respect to the
replacement string "Canada Area". -/
theorem canadaScan_no_new_occ {t : List Char}
    (H1 : ¬ t <:+: ("Canada Area").toList)
    (H2 : ∀ k, k < t.length → 0 < k → ¬ (t.take k <:+ ("Canada Area").toList))
    (H3 : ∀ k, k < t.length → 0 < k →
      ¬ (t.drop k <+: ("Canada Area").toList ∨ ("Canada Area").toList <+: t.drop k)) :
    ∀ (m : List (List Char × List Char)) {name : List Char},
      ¬ t <:+: name → ¬ t <:+: canadaScan m name := by
  intro m
  induction m with
  | nil => intro name h; exact h
  | cons q rest ih =>
      intro name h
      obtain ⟨o, w⟩ := q
      by_cases ho : isSubstrOf o name = true
      · simp only [canadaScan, if_pos ho]
        exact no_new_occ (append_area_ne_nil o) (by decide) H1 H2 H3 name.length name
          (le_refl _) h
      · simp only [canadaScan, if_neg ho]
        exact ih h

/-- The generic branch cannot create a new occurrence of a target `t`,
provided every pair of the table satisfies the `no_new_occ` side
conditions (old label nonempty; `t` does not occur in the new label nor
straddle its boundaries). -/
theorem genericScan_no_new_occ {t : List Char} :
    ∀ (m : List (List Char × List Char)),
      (∀ q ∈ m, q.1 ≠ [] ∧ q.2 ≠ [] ∧ ¬ t <:+: q.2 ∧
        (∀ k, k < t.length → 0 < k → ¬ (t.take k <:+ q.2)) ∧
        (∀ k, k < t.length → 0 < k → ¬ (t.drop k <+: q.2 ∨ q.2 <+: t.drop k))) →
      ∀ {name : List Char}, ¬ t <:+: name → ¬ t <:+: genericScan m name := by
  intro m
  induction m with
  | nil => intro _ name h; exact h
  | cons q rest ih =>
      intro hcond name h
      obtain ⟨o, w⟩ := q
      obtain ⟨h1, h2, h3, h4, h5⟩ := hcond (o, w) (by simp)
      by_cases ho : isSubstrOf o name = true
      · simp only [genericScan, if_pos ho]
        exact no_new_occ h1 h2 h3 h4 h5 name.length name (le_refl _) h
      · simp only [genericScan, if_neg ho]
        exact ih (fun q hq => hcond q (List.mem_cons_of_mem _ hq)) h

/-! Lemmas about the processing loop of the remote driver.  The per-step
behaviour is characterised by four mutually exclusive cases (name
unchanged; changed in dry run; changed and push succeeded; changed and
push failed), then each field of the summary and the trace is computed
by folding those cases over the account list. -/

theorem bne_names_false {a : Account} (h : a.name = update_account_name a.name) :
    (a.name != update_account_name a.name) = false := by
  simp only [bne_eq_false_iff_eq]
  exact h

theorem bne_names_true {a : Account} (h : ¬ a.name = update_account_name a.name) :
    (a.name != update_account_name a.name) = true := by
  simp only [bne_iff_ne]
  exact h

theorem beq_names_true {a : Account} (h : a.name = update_account_name a.name) :
    (a.name == update_account_name a.name) = true := by
  simp only [beq_iff_eq]
  exact h

theorem beq_names_false {a : Account} (h : ¬ a.name = update_account_name a.name) :
    (a.name == update_account_name a.name) = false := by
  simp only [beq_eq_false_iff_ne, ne_eq]
  exact h

theorem accountEvents_eq_nil (a : Account) (h : a.name = update_account_name a.name) :
    accountEvents a = [] := by
  rw [accountEvents, if_neg (fun hh => hh h)]

theorem accountEvents_eq_push (a : Account) (h : ¬ a.name = update_account_name a.name) :
    accountEvents a
      = [Event.push a.id (update_account_name a.name), Event.sleep] := by
  rw [accountEvents, if_pos h]

theorem step_unchanged (pushResult : List Char → List Char → Bool) (dry_run : Bool)
    (st : Results × List Event) (a : Account) (h : a.name = update_account_name a.name) :
    processAccountStep pushResult dry_run st a
      = ({ st.1 with unchanged := st.1.unchanged + 1 }, st.2) := by
  simp only [processAccountStep]
  rw [if_neg (fun hh => hh h)]

theorem step_dry_changed (pushResult : List Char → List Char → Bool)
    (st : Results × List Event) (a : Account) (h : ¬ a.name = update_account_name a.name) :
    processAccountStep pushResult true st a
      = ({ st.1 with
            changed := st.1.changed + 1,
            changes := st.1.changes ++ [(a.id, a.name, update_account_name a.name)] },
          st.2) := by
  simp only [processAccountStep]
  rw [if_pos h]
  simp

theorem step_live_ok (pushResult : List Char → List Char → Bool)
    (st : Results × List Event) (a : Account) (h : ¬ a.name = update_account_name a.name)
    (hp : pushResult a.id (update_account_name a.name) = true) :
    processAccountStep pushResult false st a
      = ({ st.1 with
            changed := st.1.changed + 1,
            changes := st.1.changes ++ [(a.id, a.name, update_account_name a.name)] },
          st.2 ++ [Event.push a.id (update_account_name a.name), Event.sleep]) := by
  simp only [processAccountStep]
  rw [if_pos h]
  simp [hp]

theorem step_live_fail (pushResult : List Char → List Char → Bool)
    (st : Results × List Event) (a : Account) (h : ¬ a.name = update_account_name a.name)
    (hp : pushResult a.id (update_account_name a.name) = false) :
    processAccountStep pushResult false st a
      = ({ st.1 with
            errors := st.1.errors + 1,
            changes := st.1.changes ++ [(a.id, a.name, update_account_name a.name)] },
          st.2 ++ [Event.push a.id (update_account_name a.name), Event.sleep]) := by
  simp only [processAccountStep]
  rw [if_pos h]
  simp [hp]

theorem foldl_trace_dry (pushResult : List Char → List Char → Bool) :
    ∀ (accs : List Account) (st : Results × List Event),
      (accs.foldl (processAccountStep pushResult true) st).2 = st.2 := by
  intro accs
  induction accs with
  | nil => intro st; rfl
  | cons a rest ih =>
      intro st
      rw [List.foldl_cons]
      by_cases h : a.name = update_account_name a.name
      · rw [step_unchanged pushResult true st a h, ih]
      · rw [step_dry_changed pushResult st a h, ih]

theorem foldl_trace_live (pushResult : List Char → List Char → Bool) :
    ∀ (accs : List Account) (st : Results × List Event),
      (accs.foldl (processAccountStep pushResult false) st).2
        = st.2 ++ liveTrace accs := by
  intro accs
  induction accs with
  | nil => intro st; simp [liveTrace]
  | cons a rest ih =>
      intro st
      rw [List.foldl_cons]
      by_cases h : a.name = update_account_name a.name
      · rw [step_unchanged pushResult false st a h, ih]
        simp only [liveTrace, accountEvents_eq_nil a h, List.nil_append]
      · cases hp : pushResult a.id (update_account_name a.name) with
        | true =>
            rw [step_live_ok pushResult st a h hp, ih]
            simp only [liveTrace, accountEvents_eq_push a h, List.append_assoc,
              List.cons_append, List.nil_append]
        | false =>
            rw [step_live_fail pushResult st a h hp, ih]
            simp only [liveTrace, accountEvents_eq_push a h, List.append_assoc,
              List.cons_append, List.nil_append]

theorem pushEvents_liveTrace :
    ∀ accs : List Account,
      pushEvents (liveTrace accs)
        = (accs.filter (fun a => a.name != update_account_name a.name)).map
            (fun a => (a.id, update_account_name a.name)) := by
  intro accs
  induction accs with
  | nil => rfl
  | cons a rest ih =>
      by_cases h : a.name = update_account_name a.name
      · simp [liveTrace, accountEvents_eq_nil a h, List.filter_cons, bne_names_false h, ih]
      · simp [liveTrace, accountEvents_eq_push a h, List.filter_cons, bne_names_true h,
          pushEvents, ih]

theorem sleep_after_push_liveTrace :
    ∀ (accs : List Account) (i : Nat) (idv nv : List Char),
      (liveTrace accs)[i]? = some (Event.push idv nv) →
      (liveTrace accs)[i + 1]? = some Event.sleep := by
  intro accs
  induction accs with
  | nil => intro i idv nv h; simp [liveTrace] at h
  | cons a rest ih =>
      intro i idv nv h
      by_cases hc : a.name = update_account_name a.name
      · rw [liveTrace, accountEvents_eq_nil a hc, List.nil_append] at h ⊢
        exact ih i idv nv h
      · rw [liveTrace, accountEvents_eq_push a hc, List.cons_append, List.cons_append,
          List.nil_append] at h ⊢
        match i, h with
        | 0, _ => simp
        | 1, h => simp at h
        | (k + 2), h =>
            simp only [List.getElem?_cons_succ] at h ⊢
            exact ih k idv nv h

theorem foldl_total (pushResult : List Char → List Char → Bool) (dry_run : Bool) :
    ∀ (accs : List Account) (st : Results × List Event),
      ((accs.foldl (processAccountStep pushResult dry_run) st).1).total_accounts
        = st.1.total_accounts := by
  intro accs
  induction accs with
  | nil => intro st; rfl
  | cons a rest ih =>
      intro st
      rw [List.foldl_cons]
      by_cases h : a.name = update_account_name a.name
      · rw [step_unchanged pushResult dry_run st a h, ih]
      · cases dry_run with
        | true => rw [step_dry_changed pushResult st a h, ih]
        | false =>
            cases hp : pushResult a.id (update_account_name a.name) with
            | true => rw [step_live_ok pushResult st a h hp, ih]
            | false => rw [step_live_fail pushResult st a h hp, ih]

theorem foldl_changed (pushResult : List Char → List Char → Bool) (dry_run : Bool) :
    ∀ (accs : List Account) (st : Results × List Event),
      ((accs.foldl (processAccountStep pushResult dry_run) st).1).changed
        = st.1.changed + (accs.filter (fun a =>
            (a.name != update_account_name a.name)
              && (dry_run || pushResult a.id (update_account_name a.name)))).length := by
  intro accs
  induction accs with
  | nil => intro st; rfl
  | cons a rest ih =>
      intro st
      rw [List.foldl_cons, List.filter_cons]
      by_cases h : a.name = update_account_name a.name
      · rw [step_unchanged pushResult dry_run st a h, ih]
        simp [bne_names_false h]
      · cases dry_run with
        | true =>
            rw [step_dry_changed pushResult st a h, ih]
            simp [bne_names_true h]
            omega
        | false =>
            cases hp : pushResult a.id (update_account_name a.name) with
            | true =>
                rw [step_live_ok pushResult st a h hp, ih]
                simp [bne_names_true h, hp]
                omega
            | false =>
                rw [step_live_fail pushResult st a h hp, ih]
                simp [bne_names_true h, hp]

theorem foldl_errors (pushResult : List Char → List Char → Bool) (dry_run : Bool) :
    ∀ (accs : List Account) (st : Results × List Event),
      ((accs.foldl (processAccountStep pushResult dry_run) st).1).errors
        = st.1.errors + (accs.filter (fun a =>
            (a.name != update_account_name a.name)
              && (!dry_run && !pushResult a.id (update_account_name a.name)))).length := by
  intro accs
  induction accs with
  | nil => intro st; rfl
  | cons a rest ih =>
      intro st
      rw [List.foldl_cons, List.filter_cons]
      by_cases h : a.name = update_account_name a.name
      · rw [step_unchanged pushResult dry_run st a h, ih]
        simp [bne_names_false h]
      · cases dry_run with
        | true =>
            rw [step_dry_changed pushResult st a h, ih]
            simp [bne_names_true h]
        | false =>
            cases hp : pushResult a.id (update_account_name a.name) with
            | true =>
                rw [step_live_ok pushResult st a h hp, ih]
                simp [bne_names_true h, hp]
            | false =>
                rw [step_live_fail pushResult st a h hp, ih]
                simp [bne_names_true h, hp]
                omega

theorem foldl_unchanged (pushResult : List Char → List Char → Bool) (dry_run : Bool) :
    ∀ (accs : List Account) (st : Results × List Event),
      ((accs.foldl (processAccountStep pushResult dry_run) st).1).unchanged
        = st.1.unchanged + (accs.filter (fun a =>
            a.name == update_account_name a.name)).length := by
  intro accs
  induction accs with
  | nil => intro st; rfl
  | cons a rest ih =>
      intro st
      rw [List.foldl_cons, List.filter_cons]
      by_cases h : a.name = update_account_name a.name
      · rw [step_unchanged pushResult dry_run st a h, ih]
        simp [beq_names_true h]
        omega
      · cases dry_run with
        | true =>
            rw [step_dry_changed pushResult st a h, ih]
            simp [beq_names_false h]
        | false =>
            cases hp : pushResult a.id (update_account_name a.name) with
            | true =>
                rw [step_live_ok pushResult st a h hp, ih]
                simp [beq_names_false h]
            | false =>
                rw [step_live_fail pushResult st a h hp, ih]
                simp [beq_names_false h]

theorem foldl_changes (pushResult : List Char → List Char → Bool) (dry_run : Bool) :
    ∀ (accs : List Account) (st : Results × List Event),
      ((accs.foldl (processAccountStep pushResult dry_run) st).1).changes
        = st.1.changes ++ (accs.filter (fun a =>
            a.name != update_account_name a.name)).map
              (fun a => (a.id, a.name, update_account_name a.name)) := by
  intro accs
  induction accs with
  | nil => intro st; simp
  | cons a rest ih =>
      intro st
      rw [List.foldl_cons, List.filter_cons]
      by_cases h : a.name = update_account_name a.name
      · rw [step_unchanged pushResult dry_run st a h, ih]
        simp [bne_names_false h]
      · cases dry_run with
        | true =>
            rw [step_dry_changed pushResult st a h, ih]
            simp [bne_names_true h]
        | false =>
            cases hp : pushResult a.id (update_account_name a.name) with
            | true =>
                rw [step_live_ok pushResult st a h hp, ih]
                simp [bne_names_true h]
            | false =>
                rw [step_live_fail pushResult st a h hp, ih]
                simp [bne_names_true h]

end MetaAds

namespace MetaAds

example : update_account_name ("Washington Yakima Mission - North America West Area").toList
    = ("Washington Yakima Mission - United States West Area").toList := by decide

example : update_account_name ("Canada Toronto Mission - North America East Area").toList
    = ("Canada Toronto Mission - Canada Area").toList := by decide

example : update_account_name ("Canada Office").toList = ("Canada Office").toList := by decide

example : update_account_name ("New York Mission").toList = ("New York Mission").toList := by
  decide

/-- Claim C1 fails on the code: on a Canada name whose first table hit is
an old label *not* followed by " Area" while a later pair's
`old ++ " Area"` does occur, the code stops at the first contained old
label and returns the input unchanged, whereas the claim's scan (first
pair whose `old ++ " Area"` is contained) would rewrite the later
"North America East Area" into "Canada Area". -/
theorem C1_counterexample :
    isSubstrOf ("Canada").toList
      ("Canada Mission - North America West - North America East Area").toList = true ∧
    update_account_name ("Canada Mission - North America West - North America East Area").toList
      = ("Canada Mission - North America West - North America East Area").toList ∧
    specCanadaScan create_area_mapping
      ("Canada Mission - North America West - North America East Area").toList
      = ("Canada Mission - North America West - Canada Area").toList ∧
    update_account_name ("Canada Mission - North America West - North America East Area").toList
      ≠ specCanadaScan create_area_mapping
          ("Canada Mission - North America West - North America East Area").toList := by
  decide

/-- Claim C2 fails on the code: Python's `str.replace` is a global
replace, so on a non-Canada name containing the same old label twice the
code rewrites both occurrences, whereas the claim's first-occurrence
replacement would rewrite only the first. -/
theorem C2_counterexample :
    isSubstrOf ("Canada").toList
      ("North America West - North America West Area").toList = false ∧
    update_account_name ("North America West - North America West Area").toList
      = ("United States West - United States West Area").toList ∧
    specGenericScan create_area_mapping
      ("North America West - North America West Area").toList
      = ("United States West - North America West Area").toList ∧
    update_account_name ("North America West - North America West Area").toList
      ≠ specGenericScan create_area_mapping
          ("North America West - North America West Area").toList := by
  decide

/-- Claim C3 (idempotence) fails on the code: a name containing two
different old labels is only rewritten at the first table hit, so the
second label survives the first pass and is rewritten by the second
pass. -/
theorem C3_counterexample :
    update_account_name ("North America West North America East").toList
      = ("United States West North America East").toList ∧
    update_account_name (update_account_name ("North America West North America East").toList)
      = ("United States West United States East").toList ∧
    update_account_name (update_account_name ("North America West North America East").toList)
      ≠ update_account_name ("North America West North America East").toList := by
  decide

/-- A name in which no old area label occurs at all is a fixed point of
the rewriter (both branches fall through their whole scan). -/
theorem update_id_of_no_label (y : List Char)
    (h : ∀ q ∈ create_area_mapping, ¬ q.1 <:+: y) :
    update_account_name y = y := by
  have hfind : create_area_mapping.find? (fun q => isSubstrOf q.1 y) = none := by
    rw [List.find?_eq_none]
    intro q hq hc
    exact h q hq ((isSubstrOf_iff q.1 y).mp hc)
  by_cases hcan : isSubstrOf ("Canada").toList y = true
  · rw [update_account_name, if_pos hcan]
    exact canadaScan_of_none create_area_mapping hfind
  · rw [update_account_name, if_neg hcan]
    exact genericScan_of_none create_area_mapping hfind

/-- The three filters used by the live/dry counters partition the
account list: each account is counted exactly once as changed,
unchanged, or errored; and the changed-name filter splits into the
succeeded and failed ones. -/
theorem filter_partition (pushResult : List Char → List Char → Bool) (dry_run : Bool) :
    ∀ accs : List Account,
      ((accs.filter (fun a => (a.name != update_account_name a.name) && (dry_run || pushResult a.id (update_account_name a.name)))).length
        + (accs.filter (fun a => a.name == update_account_name a.name)).length
        + (accs.filter (fun a => (a.name != update_account_name a.name)
            && (!dry_run && !pushResult a.id (update_account_name a.name)))).length
        = accs.length) ∧
      ((accs.filter (fun a => a.name != update_account_name a.name)).length
        = (accs.filter (fun a => (a.name != update_account_name a.name) && (dry_run || pushResult a.id (update_account_name a.name)))).length
          + (accs.filter (fun a => (a.name != update_account_name a.name)
              && (!dry_run && !pushResult a.id (update_account_name a.name)))).length) := by
  intro accs
  induction accs with
  | nil => exact ⟨rfl, rfl⟩
  | cons a rest ih =>
      obtain ⟨ih1, ih2⟩ := ih
      simp only [List.filter_cons]
      by_cases h : a.name = update_account_name a.name
      · have c1 : ((a.name != update_account_name a.name) && (dry_run || pushResult a.id (update_account_name a.name))) = false := by
          rw [bne_names_false h]; simp
        have c3 : ((a.name != update_account_name a.name) && (!dry_run && !pushResult a.id (update_account_name a.name))) = false := by
          rw [bne_names_false h]; simp
        rw [c1, beq_names_true h, c3, bne_names_false h]
        simp only [Bool.false_eq_true, if_false, if_true, eq_self_iff_true, List.length_cons]
        constructor <;> omega
      · cases dry_run with
        | true =>
            have c1 : ((a.name != update_account_name a.name) && (true || pushResult a.id (update_account_name a.name))) = true := by
              rw [bne_names_true h]; simp
            have c3 : ((a.name != update_account_name a.name) && (!true && !pushResult a.id (update_account_name a.name))) = false := by
              rw [bne_names_true h]; simp
            rw [c1, beq_names_false h, c3, bne_names_true h]
            simp only [Bool.false_eq_true, if_false, if_true, eq_self_iff_true,
              List.length_cons]
            constructor <;> omega
        | false =>
            cases hp : pushResult a.id (update_account_name a.name) with
            | true =>
                have c1 : ((a.name != update_account_name a.name) && (false || true)) = true := by
                  rw [bne_names_true h]; rfl
                have c3 : ((a.name != update_account_name a.name) && (!false && !true)) = false := by
                  rw [bne_names_true h]; simp
                rw [c1, beq_names_false h, c3, bne_names_true h]
                simp only [Bool.false_eq_true, if_false, if_true, eq_self_iff_true,
                  List.length_cons]
                constructor <;> omega
            | false =>
                have c1 : ((a.name != update_account_name a.name) && (false || false)) = false := by
                  simp
                have c3 : ((a.name != update_account_name a.name) && (!false && !false)) = true := by
                  rw [bne_names_true h]; rfl
                rw [c1, beq_names_false h, c3, bne_names_true h]
                simp only [Bool.false_eq_true, if_false, if_true, eq_self_iff_true,
                  List.length_cons]
                constructor <;> omega

/-- Claim C1 (amended): for every input name containing "Canada", the
rewriter scans the mapping in table order for the first pair whose
**old label** (without the " Area" suffix) is contained in the input;
at that pair it returns the input with every occurrence of
`old ++ " Area"` replaced by "Canada Area" (so the input comes back
unchanged when no such `old ++ " Area"` substring occurs); if no old
label is contained at all, the input is returned unchanged. -/
theorem C1_amended_canada_branch (name : List Char)
    (hc : ("Canada").toList <:+: name) :
    (∀ old nw,
      create_area_mapping.find? (fun q => isSubstrOf q.1 name) = some (old, nw) →
      update_account_name name
        = replaceAll (old ++ (" Area").toList) ("Canada Area").toList name) ∧
    (create_area_mapping.find? (fun q => isSubstrOf q.1 name) = none →
      update_account_name name = name) := by
  have hb : isSubstrOf ("Canada").toList name = true := (isSubstrOf_iff _ name).mpr hc
  constructor
  · intro old nw h
    rw [update_account_name, if_pos hb]
    exact canadaScan_of_found create_area_mapping h
  · intro h
    rw [update_account_name, if_pos hb]
    exact canadaScan_of_none create_area_mapping h

/-- Witness for the amended claim C1 at a concrete Canada name whose
first table hit is "North America East". -/
theorem C1_amended_witness :
    (("Canada").toList <:+: ("Canada Toronto Mission - North America East Area").toList) ∧
    update_account_name ("Canada Toronto Mission - North America East Area").toList
      = replaceAll (("North America East").toList ++ (" Area").toList)
          ("Canada Area").toList
          ("Canada Toronto Mission - North America East Area").toList :=
  ⟨by decide,
    (C1_amended_canada_branch ("Canada Toronto Mission - North America East Area").toList
      (by decide)).1 ("North America East").toList ("United States East").toList (by decide)⟩

/-- Claim C2 (amended): for every input name not containing "Canada",
the rewriter scans the mapping in table order for the first pair whose
old label is contained in the input and returns the input with **every**
occurrence of the old label replaced by the new label (Python's
`str.replace` is a global replace); if no old label is contained, the
input is returned unchanged. -/
theorem C2_amended_generic_branch (name : List Char)
    (hc : ¬ ("Canada").toList <:+: name) :
    (∀ old nw,
      create_area_mapping.find? (fun q => isSubstrOf q.1 name) = some (old, nw) →
      update_account_name name = replaceAll old nw name) ∧
    (create_area_mapping.find? (fun q => isSubstrOf q.1 name) = none →
      update_account_name name = name) := by
  have hb : ¬ isSubstrOf ("Canada").toList name = true :=
    fun h => hc ((isSubstrOf_iff _ name).mp h)
  constructor
  · intro old nw h
    rw [update_account_name, if_neg hb]
    exact genericScan_of_found create_area_mapping h
  · intro h
    rw [update_account_name, if_neg hb]
    exact genericScan_of_none create_area_mapping h

/-- Witness for the amended claim C2 at a concrete non-Canada name. -/
theorem C2_amended_witness :
    (¬ ("Canada").toList <:+: ("Washington Yakima Mission - North America West Area").toList) ∧
    update_account_name ("Washington Yakima Mission - North America West Area").toList
      = replaceAll ("North America West").toList ("United States West").toList
          ("Washington Yakima Mission - North America West Area").toList :=
  ⟨by decide,
    (C2_amended_generic_branch ("Washington Yakima Mission - North America West Area").toList
      (by decide)).1 ("North America West").toList ("United States West").toList (by decide)⟩

/-- Claim C3 (amended): the rewriter is idempotent on every name whose
rewritten output contains no old area label (the condition the spec's
own parenthetical justification appeals to); it is not idempotent in
general, see the counterexample. -/
theorem C3_amended_idempotent (name : List Char)
    (h : ∀ q ∈ create_area_mapping, ¬ q.1 <:+: update_account_name name) :
    update_account_name (update_account_name name) = update_account_name name :=
  update_id_of_no_label (update_account_name name) h

/-- Witness for the amended claim C3 at a concrete name: its rewrite
contains no old area label, so a second application changes nothing. -/
theorem C3_amended_witness :
    (∀ q ∈ create_area_mapping,
      ¬ q.1 <:+: update_account_name
        ("Washington Yakima Mission - North America West Area").toList) ∧
    update_account_name (update_account_name
        ("Washington Yakima Mission - North America West Area").toList)
      = update_account_name ("Washington Yakima Mission - North America West Area").toList :=
  ⟨by decide,
    C3_amended_idempotent ("Washington Yakima Mission - North America West Area").toList
      (by decide)⟩

/-- Claim C4: a name containing "Canada" is handled exclusively by the
Canada branch (the generic old-to-new substitution is never applied);
it comes back unchanged whenever no `old ++ " Area"` substring occurs in
it (even if a bare old label occurs); it differs from the input only
when some `old ++ " Area"` substring occurs; and the rewrite never
introduces the label prefix "United States" into such a name. -/
theorem C4_canada_branch_properties (name : List Char)
    (hc : ("Canada").toList <:+: name) :
    update_account_name name = canadaScan create_area_mapping name ∧
    ((∀ q ∈ create_area_mapping, ¬ (q.1 ++ (" Area").toList) <:+: name) →
      update_account_name name = name) ∧
    (update_account_name name ≠ name →
      ∃ q ∈ create_area_mapping, (q.1 ++ (" Area").toList) <:+: name) ∧
    (¬ ("United States").toList <:+: name →
      ¬ ("United States").toList <:+: update_account_name name) := by
  have hb : isSubstrOf ("Canada").toList name = true := (isSubstrOf_iff _ name).mpr hc
  have heq : update_account_name name = canadaScan create_area_mapping name := by
    rw [update_account_name, if_pos hb]
  refine ⟨heq, ?_, ?_, ?_⟩
  · intro h
    rw [heq]
    exact canadaScan_id_of_no_area_occ create_area_mapping h
  · intro hne
    by_contra hnot
    push_neg at hnot
    exact hne (by rw [heq]; exact canadaScan_id_of_no_area_occ create_area_mapping hnot)
  · intro hus
    rw [heq]
    exact canadaScan_no_new_occ (by decide) (by decide) (by decide)
      create_area_mapping hus

/-- Witness for claim C4 at a concrete Canada name. -/
theorem C4_witness :
    (("Canada").toList <:+: ("Canada Vancouver Mission - North America West Area").toList) ∧
    (update_account_name ("Canada Vancouver Mission - North America West Area").toList
        = canadaScan create_area_mapping
            ("Canada Vancouver Mission - North America West Area").toList ∧
      ((∀ q ∈ create_area_mapping, ¬ (q.1 ++ (" Area").toList) <:+:
          ("Canada Vancouver Mission - North America West Area").toList) →
        update_account_name ("Canada Vancouver Mission - North America West Area").toList
          = ("Canada Vancouver Mission - North America West Area").toList) ∧
      (update_account_name ("Canada Vancouver Mission - North America West Area").toList
          ≠ ("Canada Vancouver Mission - North America West Area").toList →
        ∃ q ∈ create_area_mapping, (q.1 ++ (" Area").toList) <:+:
          ("Canada Vancouver Mission - North America West Area").toList) ∧
      (¬ ("United States").toList <:+:
          ("Canada Vancouver Mission - North America West Area").toList →
        ¬ ("United States").toList <:+:
          update_account_name
            ("Canada Vancouver Mission - North America West Area").toList)) :=
  ⟨by decide,
    C4_canada_branch_properties
      ("Canada Vancouver Mission - North America West Area").toList (by decide)⟩

/-- Claim C5: the batch/list driver returns one (original, updated) pair
per input name, in input order; the i-th result pairs the i-th input
with its rewrite, so in particular the result list has the same length
as the input list and the first component of each pair is the original
input name. -/
theorem C5_batch_driver (account_names : List (List Char)) :
    (process_accounts_from_list account_names).length = account_names.length ∧
    ∀ i : Nat, (process_accounts_from_list account_names)[i]?
      = (account_names[i]?).map (fun name => (name, update_account_name name)) := by
  constructor
  · simp [process_accounts_from_list]
  · intro i
    simp [process_accounts_from_list]

/-- Claim C10: the rewriter preserves "Canada"-containment in both
directions: the output contains "Canada" exactly when the input does.
The generic branch cannot introduce "Canada" (no "United States ..."
replacement contains it or can complete it across a boundary), and the
Canada branch either returns the input or inserts "Canada Area". -/
theorem C10_canada_preserved (name : List Char) :
    ("Canada").toList <:+: update_account_name name ↔ ("Canada").toList <:+: name := by
  by_cases hc : isSubstrOf ("Canada").toList name = true
  · have hcan : ("Canada").toList <:+: name := (isSubstrOf_iff _ name).mp hc
    have heq : update_account_name name = canadaScan create_area_mapping name := by
      rw [update_account_name, if_pos hc]
    exact ⟨fun _ => hcan,
      fun _ => heq ▸ canadaScan_keeps_canada create_area_mapping hcan⟩
  · have hcan : ¬ ("Canada").toList <:+: name :=
      fun h => hc ((isSubstrOf_iff _ name).mpr h)
    have heq : update_account_name name = genericScan create_area_mapping name := by
      rw [update_account_name, if_neg hc]
    constructor
    · intro h
      exfalso
      exact genericScan_no_new_occ create_area_mapping (by decide) hcan (heq ▸ h)
    · intro h
      exact absurd h hcan

/-- Claim C8: the account-listing operation returns the empty list on a
transport error (the caller then proceeds with zero accounts), and on
success returns exactly the fetched entries whose `account_status` is
the active constant 1, each reduced to an id/name record. -/
theorem C8_listing_error_handling :
    get_all_ad_accounts ApiResult.transportError = [] ∧
    ∀ (data : List RawAccount) (a : Account),
      a ∈ get_all_ad_accounts (ApiResult.ok data)
        ↔ ∃ raw ∈ data, raw.account_status = some 1
            ∧ a = { id := raw.id, name := raw.name } := by
  refine ⟨rfl, ?_⟩
  intro data a
  simp only [get_all_ad_accounts, List.mem_map, List.mem_filter, beq_iff_eq]
  constructor
  · rintro ⟨raw, ⟨hm, hs⟩, rfl⟩
    exact ⟨raw, hm, hs, rfl⟩
  · rintro ⟨raw, hm, hs, rfl⟩
    exact ⟨raw, ⟨hm, hs⟩, rfl⟩

/-- Claim C6: with `dry_run = true` the processing loop performs no side
effects at all (in particular it never invokes the rename push); with
`dry_run = false` it pushes exactly once per account whose rewritten
name differs from the original (in listing order, never for unchanged
accounts), and every push is immediately followed by the fixed
rate-limiting sleep. -/
theorem C6_dry_run_and_live_pushes (pushResult : List Char → List Char → Bool)
    (listResp : ApiResult (List RawAccount)) :
    (process_all_accounts pushResult listResp true).2 = [] ∧
    pushEvents (process_all_accounts pushResult listResp false).2
      = ((get_all_ad_accounts listResp).filter
          (fun a => a.name != update_account_name a.name)).map
          (fun a => (a.id, update_account_name a.name)) ∧
    (∀ (i : Nat) (idv nv : List Char),
      (process_all_accounts pushResult listResp false).2[i]? = some (Event.push idv nv) →
      (process_all_accounts pushResult listResp false).2[i + 1]? = some Event.sleep) := by
  have htr : (process_all_accounts pushResult listResp false).2
      = liveTrace (get_all_ad_accounts listResp) := by
    simp only [process_all_accounts]
    rw [foldl_trace_live]
    simp
  refine ⟨?_, ?_, ?_⟩
  · simp only [process_all_accounts]
    rw [foldl_trace_dry]
  · rw [htr]
    exact pushEvents_liveTrace (get_all_ad_accounts listResp)
  · intro i idv nv h
    rw [htr] at h ⊢
    exact sleep_after_push_liveTrace (get_all_ad_accounts listResp) i idv nv h

/-- Claim C7: the rename push returns a boolean, `false` on a transport
error (it does not raise); in a live run the error counter counts
exactly the changed accounts whose push failed, the changed counter
counts exactly the changed accounts whose push succeeded, and the
changes list still records every changed account in listing order — a
failed push affects neither previously recorded successes nor the
processing of later accounts. -/
theorem C7_push_failure_handling (pushResult : List Char → List Char → Bool)
    (listResp : ApiResult (List RawAccount)) :
    MetaAdsUpdater.update_account_name ApiResult.transportError = false ∧
    (process_all_accounts pushResult listResp false).1.errors
      = ((get_all_ad_accounts listResp).filter (fun a =>
          (a.name != update_account_name a.name)
            && !pushResult a.id (update_account_name a.name))).length ∧
    (process_all_accounts pushResult listResp false).1.changed
      = ((get_all_ad_accounts listResp).filter (fun a =>
          (a.name != update_account_name a.name)
            && pushResult a.id (update_account_name a.name))).length ∧
    (process_all_accounts pushResult listResp false).1.changes
      = ((get_all_ad_accounts listResp).filter (fun a =>
          a.name != update_account_name a.name)).map
          (fun a => (a.id, a.name, update_account_name a.name)) := by
  refine ⟨rfl, ?_, ?_, ?_⟩
  · simp only [process_all_accounts]
    rw [foldl_errors]
    simp only [Bool.not_false, Bool.true_and, Nat.zero_add]
  · simp only [process_all_accounts]
    rw [foldl_changed]
    simp only [Bool.false_or, Nat.zero_add]
  · simp only [process_all_accounts]
    rw [foldl_changes]
    simp only [List.nil_append]

/-- Claim C9: for every fetched account list and dry-run flag, the
returned summary satisfies the accounting invariants
`changed + unchanged + errors = total_accounts` and
`len(changes) = changed + errors`, and in dry-run mode `errors = 0`. -/
theorem C9_summary_invariants (pushResult : List Char → List Char → Bool)
    (listResp : ApiResult (List RawAccount)) (dry_run : Bool) :
    (process_all_accounts pushResult listResp dry_run).1.changed
        + (process_all_accounts pushResult listResp dry_run).1.unchanged
        + (process_all_accounts pushResult listResp dry_run).1.errors
      = (process_all_accounts pushResult listResp dry_run).1.total_accounts ∧
    (process_all_accounts pushResult listResp dry_run).1.changes.length
      = (process_all_accounts pushResult listResp dry_run).1.changed
        + (process_all_accounts pushResult listResp dry_run).1.errors ∧
    (dry_run = true → (process_all_accounts pushResult listResp dry_run).1.errors = 0) := by
  obtain ⟨hpart1, hpart2⟩ :=
    filter_partition pushResult dry_run (get_all_ad_accounts listResp)
  refine ⟨?_, ?_, ?_⟩
  · simp only [process_all_accounts]
    rw [foldl_changed, foldl_unchanged, foldl_errors, foldl_total]
    simp only [Nat.zero_add]
    omega
  · simp only [process_all_accounts]
    rw [foldl_changes, foldl_changed, foldl_errors]
    simp only [List.nil_append, List.length_map, Nat.zero_add]
    omega
  · intro hdry
    subst hdry
    simp only [process_all_accounts]
    rw [foldl_errors]
    simp


end MetaAds
